import Mathlib

/-!
Verification of the stock-portfolio data pipeline in `aiStockPickers.py`.

The pipeline is embedded shallowly: trading dates become natural numbers
(ordinal day numbers), adjusted-close prices become rationals, and a pandas
`NaN` cell becomes `Option.none`.  A `DataFrame` indexed by date becomes a
`PriceTable`: a list of column names (tickers) plus one row per date, each
row carrying one optional price per column.

The embedded operations are, in pipeline order:
`fetch_stock_data` (response decoding and date sort), `get_all_data`
(outer join over the deduplicated ticker set), the cleaning step
`ffill().dropna()` shared by `get_stock_returns` and
`calculate_portfolio_performance`, normalization to the 100 baseline,
equal-weighted portfolio means, and per-stock total-return rankings.
-/

/-- A pandas `DataFrame` indexed by date: `cols` are the column labels
(tickers), `rows` holds one entry per date, each with one optional price
per column (`none` models a `NaN` cell). -/
structure PriceTable where
  cols : List String
  rows : List (Nat × List (Option ℚ))
deriving DecidableEq

/-- Every row has exactly one cell per column, as in an actual
rectangular `DataFrame`. -/
def Wellformed (T : PriceTable) : Prop :=
  ∀ r ∈ T.rows, r.2.length = T.cols.length

instance (T : PriceTable) : Decidable (Wellformed T) :=
  List.decidableBAll _ _

/-- The date index of the table (`df.index`). -/
def datesOf (T : PriceTable) : List Nat := T.rows.map Prod.fst

/-- Position of the first column with the given label
(`df.columns.get_loc(t)`), `none` when absent. -/
def idx? (t : String) : List String → Option Nat
  | [] => none
  | c :: cs => if c = t then some 0 else (idx? t cs).map (· + 1)

/-- The cell of `T` at date `d` and column `t` (`df.at[d, t]`);
`none` when the date or column is absent or the stored cell is `NaN`. -/
def lookupCell (T : PriceTable) (d : Nat) (t : String) : Option ℚ :=
  match idx? t T.cols with
  | some j =>
    match T.rows.find? (fun r => r.1 == d) with
    | some r => r.2.getD j none
    | none => none
  | none => none

/-- One cell of the forward fill: keep the current value when present,
else fall back to the value carried from the previous rows. -/
def fillCell (prev cur : Option ℚ) : Option ℚ :=
  match cur with
  | some v => some v
  | none => prev

/-- Forward-fill one row against the vector of last known values.
The output always has the current row's length, as in pandas where both
have one entry per column. -/
def fillRow : List (Option ℚ) → List (Option ℚ) → List (Option ℚ)
  | _, [] => []
  | [], c :: cs => c :: fillRow [] cs
  | p :: ps, c :: cs => fillCell p c :: fillRow ps cs

/-- Forward-fill the rows in date order, threading the vector of last
known values (`df.ffill()`, columns filled independently). -/
def ffillRows (prev : List (Option ℚ)) :
    List (Nat × List (Option ℚ)) → List (Nat × List (Option ℚ))
  | [] => []
  | (d, r) :: rest =>
    let r2 := fillRow prev r
    (d, r2) :: ffillRows r2 rest

/-- `df.ffill()`: the first row has no prior values to inherit. -/
def ffillTable (T : PriceTable) : PriceTable :=
  ⟨T.cols, ffillRows [] T.rows⟩

/-- `df.dropna()`: keep only the rows in which every cell is present. -/
def dropnaRows (rows : List (Nat × List (Option ℚ))) :
    List (Nat × List (Option ℚ)) :=
  rows.filter (fun r => r.2.all (fun c => c.isSome))

/-- The cleaning step `master_df.ffill().dropna()` used by both
`get_stock_returns` (line 121) and `calculate_portfolio_performance`
(line 146). -/
def cleanTable (T : PriceTable) : PriceTable :=
  ⟨T.cols, dropnaRows (ffillRows [] T.rows)⟩

/-- The cells of column number `j`, top to bottom. -/
def colCells (T : PriceTable) (j : Nat) : List (Option ℚ) :=
  T.rows.map (fun r => r.2.getD j none)

/-- The last present value of a run of cells (`none` when all are
missing): the value a forward fill carries past the end of the run. -/
def lastSome (l : List (Option ℚ)) : Option ℚ :=
  l.foldl fillCell none

theorem fillRow_of_all_some (prev : List (Option ℚ)) :
    ∀ r : List (Option ℚ), (∀ c ∈ r, c.isSome = true) → fillRow prev r = r := by
  induction prev with
  | nil =>
    intro r h
    induction r with
    | nil => rfl
    | cons c cs ih =>
      cases c with
      | none => simpa using h none (by simp)
      | some v => simp [fillRow, ih fun c hc => h c (by simp [hc])]
  | cons p ps ih =>
    intro r h
    cases r with
    | nil => rfl
    | cons c cs =>
      cases c with
      | none => simpa using h none (by simp)
      | some v =>
        simp [fillRow, fillCell, ih cs fun c hc => h c (by simp [hc])]

theorem ffillRows_of_all_some (rows : List (Nat × List (Option ℚ))) :
    ∀ prev, (∀ r ∈ rows, ∀ c ∈ r.2, c.isSome = true) → ffillRows prev rows = rows := by
  induction rows with
  | nil => intro prev _; rfl
  | cons r rest ih =>
    intro prev h
    have hr : fillRow prev r.2 = r.2 :=
      fillRow_of_all_some prev r.2 (h r (by simp))
    simp only [ffillRows, hr]
    exact congrArg _ (ih r.2 fun r hr c hc => h r (by simp [hr]) c hc)

theorem mem_dropnaRows_all_some {rows : List (Nat × List (Option ℚ))}
    {r : Nat × List (Option ℚ)} (h : r ∈ dropnaRows rows) :
    ∀ c ∈ r.2, c.isSome = true := by
  have := List.of_mem_filter h
  simpa [List.all_eq_true] using this

/-- **C5.** The cleaning step is idempotent: forward-filling an already
clean table changes nothing (every cell is present), and dropping
incomplete rows from it removes nothing. -/
theorem c5_clean_idempotent (T : PriceTable) :
    cleanTable (cleanTable T) = cleanTable T := by
  unfold cleanTable
  have hall : ∀ r ∈ dropnaRows (ffillRows [] T.rows), ∀ c ∈ r.2, c.isSome = true :=
    fun r hr => mem_dropnaRows_all_some hr
  rw [ffillRows_of_all_some _ [] hall]
  have : dropnaRows (dropnaRows (ffillRows [] T.rows)) = dropnaRows (ffillRows [] T.rows) := by
    apply List.filter_eq_self.mpr
    intro r hr
    simpa [List.all_eq_true] using mem_dropnaRows_all_some hr
  rw [this]

theorem fillCell_none (c : Option ℚ) : fillCell none c = c := by
  cases c <;> rfl

theorem fillRow_length : ∀ (r prev : List (Option ℚ)),
    (fillRow prev r).length = r.length := by
  intro r
  induction r with
  | nil => intro prev; cases prev <;> rfl
  | cons c cs ih => intro prev; cases prev <;> simp [fillRow, ih]

theorem fillRow_getD : ∀ (r prev : List (Option ℚ)) (j : Nat), j < r.length →
    (fillRow prev r).getD j none = fillCell (prev.getD j none) (r.getD j none) := by
  intro r
  induction r with
  | nil => intro prev j h; simp at h
  | cons c cs ih =>
    intro prev j h
    cases prev with
    | nil =>
      cases j with
      | zero => simp [fillRow, fillCell_none]
      | succ j => simpa [fillRow, fillCell_none] using ih [] j (by simpa using h)
    | cons p ps =>
      cases j with
      | zero => simp [fillRow]
      | succ j => simpa [fillRow] using ih ps j (by simpa using h)

theorem ffillRows_length : ∀ (rows : List (Nat × List (Option ℚ))) (prev),
    (ffillRows prev rows).length = rows.length := by
  intro rows
  induction rows with
  | nil => intro prev; rfl
  | cons r rest ih =>
    intro prev
    obtain ⟨d, rc⟩ := r
    simp [ffillRows, ih]

theorem ffillRows_row_length {n : Nat} :
    ∀ (rows : List (Nat × List (Option ℚ))) (prev),
    (∀ r ∈ rows, r.2.length = n) → ∀ r ∈ ffillRows prev rows, r.2.length = n := by
  intro rows
  induction rows with
  | nil => intro prev _ r hr; simp [ffillRows] at hr
  | cons hd rest ih =>
    intro prev hw r hr
    obtain ⟨d, rc⟩ := hd
    simp only [ffillRows, List.mem_cons] at hr
    rcases hr with hr | hr
    · subst hr
      simpa [fillRow_length] using hw (d, rc) (by simp)
    · exact ih _ (fun r h => hw r (by simp [h])) r hr

theorem foldl_fillCell_mem : ∀ (l : List (Option ℚ)) (acc : Option ℚ) (v : ℚ),
    l.foldl fillCell acc = some v → some v ∈ l ∨ acc = some v := by
  intro l
  induction l with
  | nil => intro acc v h; exact Or.inr h
  | cons c cs ih =>
    intro acc v h
    rcases ih (fillCell acc c) v h with h1 | h2
    · exact Or.inl (by simp [h1])
    · cases c with
      | some w =>
        left
        simp only [fillCell] at h2
        simp [h2]
      | none => right; simpa [fillCell] using h2

theorem ffillRows_col {n : Nat} :
    ∀ (rows : List (Nat × List (Option ℚ))) (prev : List (Option ℚ)) (i : Nat),
    (∀ r ∈ rows, r.2.length = n) → ∀ j, j < n → i < rows.length →
    ((ffillRows prev rows).map (fun r => r.2.getD j none)).getD i none
      = ((rows.map (fun r => r.2.getD j none)).take (i+1)).foldl fillCell (prev.getD j none) := by
  intro rows
  induction rows with
  | nil => intro prev i _ j _ hi; simp at hi
  | cons hd rest ih =>
    intro prev i hw j hj hi
    obtain ⟨d, rc⟩ := hd
    have hlen : j < rc.length := by
      have := hw (d, rc) (by simp)
      simpa [this] using hj
    cases i with
    | zero =>
      simp only [ffillRows, List.map_cons, List.getD_cons_zero, List.take_succ_cons,
        List.take_zero, List.foldl_cons, List.foldl_nil]
      exact fillRow_getD rc prev j hlen
    | succ i =>
      have hrest : ∀ r ∈ rest, r.2.length = n := fun r h => hw r (by simp [h])
      have hi' : i < rest.length := by simpa using hi
      simp only [ffillRows, List.map_cons, List.getD_cons_succ, List.take_succ_cons,
        List.foldl_cons]
      rw [ih (fillRow prev rc) i hrest j hj hi', fillRow_getD rc prev j hlen]

/-- **C2.** The cleaning step `ffill().dropna()` first replaces each
missing cell by the most recent prior present value of its column
(conjunct 2: the filled cell at row `i` is the last present value of the
column up to row `i`), then removes exactly the rows that still have a
missing cell (conjuncts 3 and 4), so the result has no missing cell
(conjunct 1); every surviving value is one of the column's original
values, never a fabricated zero, and a row dated before some column's
first value keeps a missing cell and is dropped (conjunct 5 with
conjunct 4). -/
theorem c2_clean_semantics (T : PriceTable) (hw : Wellformed T) :
    (∀ r ∈ (cleanTable T).rows, ∀ c ∈ r.2, c.isSome = true)
    ∧ (∀ j, j < T.cols.length → ∀ i, i < T.rows.length →
        (colCells (ffillTable T) j).getD i none = lastSome ((colCells T j).take (i+1)))
    ∧ ((cleanTable T).rows = (ffillTable T).rows.filter (fun r => r.2.all (fun c => c.isSome)))
    ∧ (∀ r ∈ (ffillTable T).rows, (∃ c ∈ r.2, c = none) → r ∉ (cleanTable T).rows)
    ∧ (∀ r ∈ (cleanTable T).rows, ∀ j, j < T.cols.length →
        ∃ v, r.2.getD j none = some v ∧ some v ∈ colCells T j) := by
  have key2 : ∀ j, j < T.cols.length → ∀ i, i < T.rows.length →
      (colCells (ffillTable T) j).getD i none = lastSome ((colCells T j).take (i+1)) := by
    intro j hj i hi
    have := ffillRows_col (n := T.cols.length) T.rows [] i hw j hj hi
    simpa [colCells, ffillTable, lastSome] using this
  refine ⟨fun r hr => mem_dropnaRows_all_some hr, key2, rfl, ?_, ?_⟩
  · intro r hr hex hmem
    obtain ⟨c, hc, hcnone⟩ := hex
    have := mem_dropnaRows_all_some hmem c hc
    rw [hcnone] at this
    simp at this
  · intro r hr j hj
    have hrf : r ∈ (ffillTable T).rows := List.mem_of_mem_filter hr
    have hlen : r.2.length = T.cols.length :=
      ffillRows_row_length T.rows [] hw r hrf
    have hjr : j < r.2.length := hlen ▸ hj
    have hcell : (r.2.getD j none).isSome = true := by
      have hmem : r.2.getD j none ∈ r.2 := by
        rw [List.getD_eq_getElem _ _ hjr]
        exact List.getElem_mem _
      exact mem_dropnaRows_all_some hr _ hmem
    obtain ⟨v, hv⟩ := Option.isSome_iff_exists.mp hcell
    refine ⟨v, hv, ?_⟩
    obtain ⟨i, hi, hget⟩ := List.mem_iff_getElem.mp hrf
    have hi2 : i < T.rows.length := by
      simpa [ffillTable, ffillRows_length] using hi
    have hlen2 : i < (colCells (ffillTable T) j).length := by
      simpa [colCells] using hi
    have hcol : (colCells (ffillTable T) j).getD i none = some v := by
      rw [List.getD_eq_getElem _ _ hlen2]
      have hmap : (colCells (ffillTable T) j)[i] = r.2.getD j none := by
        simp only [colCells, List.getElem_map]
        rw [hget]
      rw [hmap, hv]
    have hlast := key2 j hj i hi2
    rw [hcol] at hlast
    rcases foldl_fillCell_mem _ none v hlast.symm with hmem | habs
    · exact List.take_subset _ _ hmem
    · exact absurd habs (by simp)

/-- Misaligned-calendar table: ticker Y trades from day 1 while ticker X
has no data before day 3; on day 4 only X prints. -/
def Tscn : PriceTable :=
  ⟨["Y", "X"],
   [(1, [some 1, none]), (2, [some 2, none]),
    (3, [some 3, some 5]), (4, [none, some 6])]⟩

theorem c2_clean_semantics_witness :
    Wellformed Tscn
    ∧ ((∀ r ∈ (cleanTable Tscn).rows, ∀ c ∈ r.2, c.isSome = true)
      ∧ (∀ j, j < Tscn.cols.length → ∀ i, i < Tscn.rows.length →
          (colCells (ffillTable Tscn) j).getD i none
            = lastSome ((colCells Tscn j).take (i+1)))
      ∧ ((cleanTable Tscn).rows
          = (ffillTable Tscn).rows.filter (fun r => r.2.all (fun c => c.isSome)))
      ∧ (∀ r ∈ (ffillTable Tscn).rows, (∃ c ∈ r.2, c = none) → r ∉ (cleanTable Tscn).rows)
      ∧ (∀ r ∈ (cleanTable Tscn).rows, ∀ j, j < Tscn.cols.length →
          ∃ v, r.2.getD j none = some v ∧ some v ∈ colCells Tscn j)) :=
  ⟨by decide, c2_clean_semantics Tscn (by decide)⟩

/-- Rebase one cell against the first row's cell for its column:
`value / base * 100`. -/
def normCell (base c : Option ℚ) : Option ℚ :=
  match base, c with
  | some b, some v => some (v / b * 100)
  | _, _ => none

/-- The normalization `(clean_df / clean_df.iloc[0]) * 100` (line 149):
every row is divided cellwise by the first row and scaled to the 100
baseline.  On the empty table it is the identity, matching pandas where
the expression is only reached on non-empty frames. -/
def normalizeTable (T : PriceTable) : PriceTable :=
  match T.rows with
  | [] => T
  | r0 :: _ => ⟨T.cols, T.rows.map (fun r => (r.1, List.zipWith normCell r0.2 r.2))⟩

/-- **C3.** On a non-empty table whose first row holds only present,
nonzero prices (true of every cleaned table of positive prices), the
normalized table's first row consists of the value 100 in every column. -/
theorem c3_normalize_baseline (T : PriceTable) (r0 : Nat × List (Option ℚ))
    (rest : List (Nat × List (Option ℚ))) (hrows : T.rows = r0 :: rest)
    (hnz : ∀ c ∈ r0.2, ∃ v, c = some v ∧ v ≠ 0) :
    ∃ cells, (normalizeTable T).rows.head? = some (r0.1, cells)
      ∧ cells.length = r0.2.length ∧ ∀ c ∈ cells, c = some 100 := by
  refine ⟨List.zipWith normCell r0.2 r0.2, ?_, ?_, ?_⟩
  · unfold normalizeTable
    rw [hrows]
    simp
  · simp
  · intro c hc
    rw [List.zipWith_same] at hc
    obtain ⟨x, hx, hcx⟩ := List.mem_map.mp hc
    obtain ⟨v, hv, hvnz⟩ := hnz x hx
    subst hv
    rw [← hcx]
    simp [normCell, div_self hvnz]

theorem c3_normalize_baseline_witness :
    (cleanTable Tscn).rows = (3, [some 3, some 5]) :: [(4, [some 3, some 6])]
    ∧ (∀ c ∈ [some (3:ℚ), some 5], ∃ v, c = some v ∧ v ≠ 0)
    ∧ (∃ cells, (normalizeTable (cleanTable Tscn)).rows.head? = some (3, cells)
        ∧ cells.length = ([some (3:ℚ), some 5]).length ∧ ∀ c ∈ cells, c = some 100) :=
  ⟨by decide, by decide,
   c3_normalize_baseline (cleanTable Tscn) (3, [some 3, some 5])
     [(4, [some 3, some 6])] (by decide) (by decide)⟩

theorem idx?_lt_length : ∀ (cols : List String) (t : String) (j : Nat),
    idx? t cols = some j → j < cols.length := by
  intro cols
  induction cols with
  | nil => intro t j h; simp [idx?] at h
  | cons c cs ih =>
    intro t j h
    by_cases hc : c = t
    · simp only [idx?, if_pos hc, Option.some.injEq] at h
      subst h
      simp
    · simp only [idx?, if_neg hc, Option.map_eq_some'] at h
      obtain ⟨j2, hj2, hje⟩ := h
      have := ih t j2 hj2
      subst hje
      simpa using Nat.succ_lt_succ this

theorem normalizeTable_cons (T : PriceTable) (r0 : Nat × List (Option ℚ))
    (rest : List (Nat × List (Option ℚ))) (h : T.rows = r0 :: rest) :
    normalizeTable T
      = ⟨T.cols, T.rows.map (fun r => (r.1, List.zipWith normCell r0.2 r.2))⟩ := by
  unfold normalizeTable
  rw [h]

theorem zipWith_getD_normCell (l1 l2 : List (Option ℚ)) (j : Nat)
    (h1 : j < l1.length) (h2 : j < l2.length) :
    (List.zipWith normCell l1 l2).getD j none
      = normCell (l1.getD j none) (l2.getD j none) := by
  have hz : j < (List.zipWith normCell l1 l2).length := by
    simp only [List.length_zipWith]
    omega
  rw [List.getD_eq_getElem _ _ hz, List.getD_eq_getElem _ _ h1,
    List.getD_eq_getElem _ _ h2]
  exact List.getElem_zipWith

/-- Point-to-point total return percentage of one column: the formula
`((end_price - start_price) / start_price) * 100` of line 135, read off
the table's first and last rows (`df.iloc[0]`, `df.iloc[-1]`); also the
portfolio-level formula of lines 230-232. -/
def colTotalReturn (T : PriceTable) (t : String) : Option ℚ :=
  match idx? t T.cols with
  | some j =>
    match T.rows.head?, T.rows.getLast? with
    | some r0, some rl =>
      match r0.2.getD j none, rl.2.getD j none with
      | some a, some b => some ((b - a) / a * 100)
      | _, _ => none
    | _, _ => none
  | none => none

/-- **C6.** Total return is invariant under normalization: for a column
whose first value is present and nonzero and whose last value is
present, the return formula on the table equals the return formula on
the table rebased to the 100 baseline (exactly, in rational
arithmetic). -/
theorem c6_return_normalization_invariant (T : PriceTable) (t : String) (j : Nat)
    (r0 rl : Nat × List (Option ℚ)) (a b : ℚ)
    (hw : Wellformed T) (hj : idx? t T.cols = some j)
    (h0 : T.rows.head? = some r0) (hl : T.rows.getLast? = some rl)
    (ha : r0.2.getD j none = some a) (hb : rl.2.getD j none = some b)
    (hnz : a ≠ 0) :
    colTotalReturn (normalizeTable T) t = colTotalReturn T t := by
  have hjlen : j < T.cols.length := idx?_lt_length T.cols t j hj
  obtain ⟨tail, hrows⟩ : ∃ tail, T.rows = r0 :: tail := by
    cases hrow : T.rows with
    | nil => rw [hrow] at h0; simp at h0
    | cons x xs =>
      rw [hrow] at h0
      simp only [List.head?_cons, Option.some.injEq] at h0
      exact ⟨xs, by rw [h0]⟩
  have hmem0 : r0 ∈ T.rows := by rw [hrows]; simp
  have hmeml : rl ∈ T.rows := List.mem_of_getLast?_eq_some hl
  have hl0 : r0.2.length = T.cols.length := hw r0 hmem0
  have hll : rl.2.length = T.cols.length := hw rl hmeml
  have hN := normalizeTable_cons T r0 tail hrows
  have hcols : (normalizeTable T).cols = T.cols := by rw [hN]
  have hhead : (normalizeTable T).rows.head?
      = some (r0.1, List.zipWith normCell r0.2 r0.2) := by
    rw [hN]
    simp [h0]
  have hlast : (normalizeTable T).rows.getLast?
      = some (rl.1, List.zipWith normCell r0.2 rl.2) := by
    rw [hN]
    simp [hl]
  have hcell0 : (List.zipWith normCell r0.2 r0.2).getD j none = some (a / a * 100) := by
    rw [zipWith_getD_normCell _ _ j (hl0 ▸ hjlen) (hl0 ▸ hjlen), ha]
    rfl
  have hcelll : (List.zipWith normCell r0.2 rl.2).getD j none = some (b / a * 100) := by
    rw [zipWith_getD_normCell _ _ j (hl0 ▸ hjlen) (hll ▸ hjlen), ha, hb]
    rfl
  have hR : colTotalReturn T t = some ((b - a) / a * 100) := by
    simp only [colTotalReturn, hj, h0, hl, ha, hb]
  have hL : colTotalReturn (normalizeTable T) t
      = some ((b / a * 100 - a / a * 100) / (a / a * 100) * 100) := by
    simp only [colTotalReturn, hcols, hj, hhead, hlast, hcell0, hcelll]
  rw [hL, hR]
  congr 1
  field_simp
  ring

theorem c6_return_normalization_invariant_witness :
    Wellformed (cleanTable Tscn)
    ∧ idx? "Y" (cleanTable Tscn).cols = some 0
    ∧ (cleanTable Tscn).rows.head? = some (3, [some 3, some 5])
    ∧ (cleanTable Tscn).rows.getLast? = some (4, [some 3, some 6])
    ∧ ([some (3:ℚ), some 5]).getD 0 none = some 3
    ∧ ([some (3:ℚ), some 6]).getD 0 none = some 3
    ∧ (3:ℚ) ≠ 0
    ∧ colTotalReturn (normalizeTable (cleanTable Tscn)) "Y"
        = colTotalReturn (cleanTable Tscn) "Y" :=
  ⟨by decide, by decide, by decide, by decide, by decide, by decide, by decide,
   c6_return_normalization_invariant (cleanTable Tscn) "Y" 0
     (3, [some 3, some 5]) (4, [some 3, some 6]) 3 3
     (by decide) (by decide) (by decide) (by decide) (by decide) (by decide)
     (by decide)⟩

/-- The single-column frame built from one successful fetch: one row per
record, the column labelled by the ticker (lines 84-90). -/
def fetchedTable (t : String) (s : List (Nat × ℚ)) : PriceTable :=
  ⟨[t], s.map (fun p => (p.1, [some p.2]))⟩

/-- Insert a date into a sorted duplicate-free date list. -/
def insSorted (d : Nat) : List Nat → List Nat
  | [] => [d]
  | x :: xs =>
    if d < x then d :: x :: xs
    else if d = x then x :: xs
    else x :: insSorted d xs

/-- The sorted duplicate-free union of two date lists: the index a
pandas outer join produces. -/
def sortedUnion (l1 l2 : List Nat) : List Nat :=
  (l1 ++ l2).foldl (fun acc d => insSorted d acc) []

/-- The row of `T` at date `d`, or an all-missing row when `d` is not
in the index: the `NaN` padding an outer join inserts. -/
def rowAt (T : PriceTable) (d : Nat) : List (Option ℚ) :=
  match T.rows.find? (fun r => r.1 == d) with
  | some r => r.2
  | none => List.replicate T.cols.length none

/-- `master_df.join(df, how='outer')` (line 114): concatenate the
columns, take the sorted union of the dates as the new index, and pad
either side's absent dates with missing cells.  The joined frames have
disjoint column sets (the loop deduplicates tickers with `set`) and at
most one row per date (one record per trading day). -/
def joinOuter (A B : PriceTable) : PriceTable :=
  ⟨A.cols ++ B.cols,
   (sortedUnion (datesOf A) (datesOf B)).map (fun d => (d, rowAt A d ++ rowAt B d))⟩

/-- One iteration of the `get_all_data` loop (lines 108-114): skip a
ticker whose fetch came back empty, adopt the first non-empty frame as
the master, and outer-join every later one. -/
def joinStep (f : String → List (Nat × ℚ)) (master : PriceTable) (t : String) :
    PriceTable :=
  if (f t).isEmpty then master
  else if master.rows.isEmpty then fetchedTable t (f t)
  else joinOuter master (fetchedTable t (f t))

/-- `get_all_data` (lines 97-117): fold the fetch-and-join loop over
the deduplicated ticker list, starting from the empty frame.  The
fetcher is abstracted as the function `f` from ticker to (possibly
empty) fetched series, the API key and start date being fixed. -/
def get_all_data (tickers : List String) (f : String → List (Nat × ℚ)) : PriceTable :=
  tickers.foldl (joinStep f) ⟨[], []⟩

/-- The price a fetched series holds at date `d`. -/
def seriesLookup (s : List (Nat × ℚ)) (d : Nat) : Option ℚ :=
  (s.find? (fun p => p.1 == d)).map Prod.snd

theorem mem_insSorted (d : Nat) : ∀ (l : List Nat) (x : Nat),
    x ∈ insSorted d l ↔ x = d ∨ x ∈ l := by
  intro l
  induction l with
  | nil => intro x; simp [insSorted]
  | cons y ys ih =>
    intro x
    by_cases h1 : d < y
    · simp [insSorted, h1]
    · by_cases h2 : d = y
      · subst h2
        simp only [insSorted, if_neg h1, if_pos rfl]
        constructor
        · intro h; exact Or.inr h
        · intro h; rcases h with h | h
          · simp [h]
          · exact h
      · simp only [insSorted, if_neg h1, if_neg h2, List.mem_cons, ih x]
        tauto

theorem mem_foldl_insSorted : ∀ (l acc : List Nat) (x : Nat),
    x ∈ l.foldl (fun acc d => insSorted d acc) acc ↔ x ∈ acc ∨ x ∈ l := by
  intro l
  induction l with
  | nil => intro acc x; simp
  | cons d ds ih =>
    intro acc x
    simp only [List.foldl_cons, ih, mem_insSorted, List.mem_cons]
    tauto

theorem mem_sortedUnion (l1 l2 : List Nat) (x : Nat) :
    x ∈ sortedUnion l1 l2 ↔ x ∈ l1 ∨ x ∈ l2 := by
  unfold sortedUnion
  rw [mem_foldl_insSorted]
  simp

theorem idx?_mem : ∀ (cols : List String) (t : String), t ∈ cols →
    ∃ j, idx? t cols = some j := by
  intro cols
  induction cols with
  | nil => intro t h; simp at h
  | cons c cs ih =>
    intro t h
    by_cases hc : c = t
    · exact ⟨0, by simp [idx?, hc]⟩
    · have ht : t ∈ cs := by
        rcases List.mem_cons.mp h with h | h
        · exact absurd h.symm hc
        · exact h
      obtain ⟨j, hj⟩ := ih t ht
      exact ⟨j + 1, by simp [idx?, hc, hj]⟩

theorem idx?_eq_none (cols : List String) (t : String) (h : t ∉ cols) :
    idx? t cols = none := by
  induction cols with
  | nil => rfl
  | cons c cs ih =>
    have hc : ¬ c = t := fun he => h (by simp [he])
    have hcs : t ∉ cs := fun ht => h (by simp [ht])
    simp [idx?, hc, ih hcs]

theorem lookupCell_of_not_mem (T : PriceTable) (d : Nat) (t : String)
    (h : t ∉ T.cols) : lookupCell T d t = none := by
  unfold lookupCell
  rw [idx?_eq_none T.cols t h]

theorem idx?_append : ∀ (c1 c2 : List String) (t : String),
    idx? t (c1 ++ c2)
      = if t ∈ c1 then idx? t c1 else (idx? t c2).map (· + c1.length) := by
  intro c1
  induction c1 with
  | nil => intro c2 t; simp [idx?]
  | cons c cs ih =>
    intro c2 t
    by_cases hc : c = t
    · simp [idx?, hc]
    · by_cases ht : t ∈ cs
      · have htc : t ∈ c :: cs := List.mem_cons_of_mem _ ht
        simp only [List.cons_append, idx?, if_neg hc, List.append_eq, ih c2 t,
          if_pos ht, if_pos htc]
      · have htc : t ∉ c :: cs := by
          intro h
          rcases List.mem_cons.mp h with h | h
          · exact hc h.symm
          · exact ht h
        simp only [List.cons_append, idx?, if_neg hc, List.append_eq, ih c2 t,
          if_neg ht, if_neg htc, Option.map_map, List.length_cons]
        cases idx? t c2 with
        | none => rfl
        | some j =>
          simp only [Option.map_some', Function.comp_apply, Option.some.injEq]
          omega

theorem rowAt_length (A : PriceTable) (hA : Wellformed A) (d : Nat) :
    (rowAt A d).length = A.cols.length := by
  unfold rowAt
  cases hf : A.rows.find? (fun r => r.1 == d) with
  | none => simp
  | some r =>
    have hr : r ∈ A.rows := List.mem_of_find?_eq_some hf
    simpa using hA r hr

theorem getD_replicate_none (n j : Nat) :
    (List.replicate n (none : Option ℚ)).getD j none = none := by
  by_cases h : j < n
  · rw [List.getD_eq_getElem _ _ (by simpa using h)]
    simp
  · exact List.getD_eq_default _ _ (by simpa using Nat.le_of_not_lt h)

theorem find?_date_none {rows : List (Nat × List (Option ℚ))} {d : Nat}
    (h : d ∉ rows.map Prod.fst) : rows.find? (fun r => r.1 == d) = none := by
  rw [List.find?_eq_none]
  intro r hr hbeq
  exact h (List.mem_map.mpr ⟨r, hr, by simpa using hbeq⟩)

theorem find?_mem_nat (d0 : Nat) : ∀ ds : List Nat,
    ds.find? (fun d => d == d0) = if d0 ∈ ds then some d0 else none := by
  intro ds
  induction ds with
  | nil => simp
  | cons x xs ih =>
    by_cases hx : x = d0
    · subst hx
      simp [List.find?]
    · have hmm : d0 ∈ x :: xs ↔ d0 ∈ xs := by
        constructor
        · intro h
          rcases List.mem_cons.mp h with h | h
          · exact absurd h.symm hx
          · exact h
        · exact fun h => List.mem_cons_of_mem _ h
      rw [List.find?_cons_of_neg _ (by simpa using hx), ih]
      by_cases hd : d0 ∈ xs
      · rw [if_pos hd, if_pos (hmm.mpr hd)]
      · rw [if_neg hd, if_neg (fun h => hd (hmm.mp h))]

theorem lookupCell_eq_bind (T : PriceTable) (d : Nat) (t : String) (j : Nat)
    (hj : idx? t T.cols = some j) :
    lookupCell T d t
      = (T.rows.find? (fun r => r.1 == d)).bind (fun r => r.2.getD j none) := by
  unfold lookupCell
  rw [hj]
  cases T.rows.find? (fun r => r.1 == d) <;> rfl

theorem lookupCell_rowAt (A : PriceTable) (d : Nat) (t : String) (j : Nat)
    (hj : idx? t A.cols = some j) :
    lookupCell A d t = (rowAt A d).getD j none := by
  rw [lookupCell_eq_bind A d t j hj]
  unfold rowAt
  cases A.rows.find? (fun r => r.1 == d) with
  | none => simp [getD_replicate_none]
  | some r => rfl

theorem lookupCell_join (A B : PriceTable) (hA : Wellformed A) (d : Nat) (t : String) :
    lookupCell (joinOuter A B) d t
      = if t ∈ A.cols then lookupCell A d t else lookupCell B d t := by
  have hrows : (joinOuter A B).rows.find? (fun r => r.1 == d)
      = if d ∈ sortedUnion (datesOf A) (datesOf B)
        then some (d, rowAt A d ++ rowAt B d) else none := by
    have h1 : (joinOuter A B).rows
        = (sortedUnion (datesOf A) (datesOf B)).map
            (fun x => (x, rowAt A x ++ rowAt B x)) := rfl
    rw [h1, List.find?_map]
    have h2 : ((fun r : Nat × List (Option ℚ) => r.1 == d)
        ∘ (fun x : Nat => (x, rowAt A x ++ rowAt B x))) = (fun x : Nat => x == d) := rfl
    rw [h2, find?_mem_nat d]
    by_cases hd : d ∈ sortedUnion (datesOf A) (datesOf B)
    · rw [if_pos hd, if_pos hd]
      rfl
    · rw [if_neg hd, if_neg hd]
      rfl
  by_cases htA : t ∈ A.cols
  · rw [if_pos htA]
    obtain ⟨j, hj⟩ := idx?_mem A.cols t htA
    have hjlt : j < A.cols.length := idx?_lt_length A.cols t j hj
    have hjoin : idx? t ((joinOuter A B).cols) = some j := by
      have h1 : (joinOuter A B).cols = A.cols ++ B.cols := rfl
      rw [h1, idx?_append, if_pos htA, hj]
    rw [lookupCell_eq_bind _ d t j hjoin, hrows, lookupCell_rowAt A d t j hj]
    by_cases hd : d ∈ sortedUnion (datesOf A) (datesOf B)
    · rw [if_pos hd, Option.some_bind]
      exact List.getD_append _ _ _ _ (by rw [rowAt_length A hA d]; exact hjlt)
    · rw [if_neg hd, Option.none_bind]
      have hdA : d ∉ datesOf A := fun h => hd ((mem_sortedUnion _ _ d).mpr (Or.inl h))
      have hre : rowAt A d = List.replicate A.cols.length none := by
        unfold rowAt
        rw [find?_date_none hdA]
      rw [hre, getD_replicate_none]
  · rw [if_neg htA]
    by_cases htB : t ∈ B.cols
    · obtain ⟨j, hj⟩ := idx?_mem B.cols t htB
      have hjoin : idx? t ((joinOuter A B).cols) = some (j + A.cols.length) := by
        have h1 : (joinOuter A B).cols = A.cols ++ B.cols := rfl
        rw [h1, idx?_append, if_neg htA, hj]
        rfl
      rw [lookupCell_eq_bind _ d t _ hjoin, hrows, lookupCell_rowAt B d t j hj]
      by_cases hd : d ∈ sortedUnion (datesOf A) (datesOf B)
      · rw [if_pos hd, Option.some_bind]
        rw [List.getD_append_right _ _ _ _ (by rw [rowAt_length A hA d]; omega)]
        rw [rowAt_length A hA d]
        congr 1
        omega
      · rw [if_neg hd, Option.none_bind]
        have hdB : d ∉ datesOf B := fun h => hd ((mem_sortedUnion _ _ d).mpr (Or.inr h))
        have hre : rowAt B d = List.replicate B.cols.length none := by
          unfold rowAt
          rw [find?_date_none hdB]
        rw [hre, getD_replicate_none]
    · have h1 : t ∉ (joinOuter A B).cols := by
        have h2 : (joinOuter A B).cols = A.cols ++ B.cols := rfl
        rw [h2]
        simp [htA, htB]
      rw [lookupCell_of_not_mem _ d t h1, lookupCell_of_not_mem B d t htB]

theorem wellformed_fetchedTable (t : String) (s : List (Nat × ℚ)) :
    Wellformed (fetchedTable t s) := by
  intro r hr
  simp only [fetchedTable, List.mem_map] at hr
  obtain ⟨p, _, he⟩ := hr
  rw [← he]
  rfl

theorem wellformed_join (A B : PriceTable) (hA : Wellformed A) (hB : Wellformed B) :
    Wellformed (joinOuter A B) := by
  intro r hr
  simp only [joinOuter, List.mem_map] at hr
  obtain ⟨d, _, he⟩ := hr
  rw [← he]
  have hc : (joinOuter A B).cols = A.cols ++ B.cols := rfl
  simp [hc, rowAt_length A hA d, rowAt_length B hB d]

theorem fetchedTable_rows_ne (t : String) (s : List (Nat × ℚ)) (h : s ≠ []) :
    (fetchedTable t s).rows ≠ [] := by
  simpa [fetchedTable] using h

theorem joinOuter_rows_ne (A B : PriceTable) (h : A.rows ≠ []) :
    (joinOuter A B).rows ≠ [] := by
  obtain ⟨r, hr⟩ := List.exists_mem_of_ne_nil A.rows h
  have hd : r.1 ∈ datesOf A := List.mem_map.mpr ⟨r, hr, rfl⟩
  have hu : r.1 ∈ sortedUnion (datesOf A) (datesOf B) :=
    (mem_sortedUnion _ _ _).mpr (Or.inl hd)
  intro hne
  have h0 : sortedUnion (datesOf A) (datesOf B) = [] := by
    have : (joinOuter A B).rows
        = (sortedUnion (datesOf A) (datesOf B)).map
            (fun x => (x, rowAt A x ++ rowAt B x)) := rfl
    rw [this] at hne
    exact List.map_eq_nil_iff.mp hne
  rw [h0] at hu
  simp at hu

theorem lookupCell_fetchedTable (t : String) (s : List (Nat × ℚ)) (d : Nat)
    (t2 : String) :
    lookupCell (fetchedTable t s) d t2 = if t = t2 then seriesLookup s d else none := by
  by_cases ht : t = t2
  · have hj : idx? t2 (fetchedTable t s).cols = some 0 := by
      simp [fetchedTable, idx?, ht]
    rw [lookupCell_eq_bind _ d t2 0 hj, if_pos ht]
    have h1 : (fetchedTable t s).rows = s.map (fun p => (p.1, [some p.2])) := rfl
    rw [h1, List.find?_map]
    have h2 : ((fun r : Nat × List (Option ℚ) => r.1 == d)
        ∘ (fun p : Nat × ℚ => (p.1, [some p.2]))) = (fun p : Nat × ℚ => p.1 == d) := rfl
    rw [h2]
    unfold seriesLookup
    cases s.find? (fun p => p.1 == d) <;> rfl
  · rw [if_neg ht]
    apply lookupCell_of_not_mem
    intro h
    simp only [fetchedTable, List.mem_singleton] at h
    exact ht h.symm

theorem lookupCell_fold (f : String → List (Nat × ℚ)) :
    ∀ (L : List String) (M : PriceTable), Wellformed M → M.rows ≠ [] →
    ∀ (d : Nat) (t : String),
    lookupCell (L.foldl (joinStep f) M) d t
      = if t ∈ M.cols then lookupCell M d t
        else if t ∈ L ∧ f t ≠ [] then seriesLookup (f t) d else none := by
  intro L
  induction L with
  | nil =>
    intro M _ _ d t
    simp only [List.foldl_nil]
    by_cases ht : t ∈ M.cols
    · rw [if_pos ht]
    · rw [if_neg ht, lookupCell_of_not_mem M d t ht]
      simp
  | cons a L ih =>
    intro M hM hne d t
    simp only [List.foldl_cons]
    have hMne : M.rows.isEmpty = false := by
      cases hrw : M.rows with
      | nil => exact absurd hrw hne
      | cons x xs => rfl
    by_cases hfa : (f a).isEmpty
    · have hfa2 : f a = [] := List.isEmpty_iff.mp hfa
      have hstep : joinStep f M a = M := by
        simp [joinStep, hfa]
      rw [hstep, ih M hM hne d t]
      by_cases ht : t ∈ M.cols
      · rw [if_pos ht, if_pos ht]
      · rw [if_neg ht, if_neg ht]
        by_cases hta : t = a
        · subst hta
          simp [hfa2]
        · simp [List.mem_cons, hta]
    · simp only [Bool.not_eq_true] at hfa
      have hfa2 : f a ≠ [] := by
        intro h
        rw [h] at hfa
        simp at hfa
      have hstep : joinStep f M a = joinOuter M (fetchedTable a (f a)) := by
        simp [joinStep, hfa, hMne]
      rw [hstep]
      have hM2 : Wellformed (joinOuter M (fetchedTable a (f a))) :=
        wellformed_join _ _ hM (wellformed_fetchedTable a (f a))
      have hne2 : (joinOuter M (fetchedTable a (f a))).rows ≠ [] :=
        joinOuter_rows_ne _ _ hne
      rw [ih _ hM2 hne2 d t]
      have hcols : (joinOuter M (fetchedTable a (f a))).cols = M.cols ++ [a] := rfl
      by_cases htM : t ∈ M.cols
      · have htM2 : t ∈ (joinOuter M (fetchedTable a (f a))).cols := by
          rw [hcols]
          exact List.mem_append_left _ htM
        rw [if_pos htM2, if_pos htM, lookupCell_join M _ hM d t, if_pos htM]
      · by_cases hta : t = a
        · subst hta
          have htM2 : t ∈ (joinOuter M (fetchedTable t (f t))).cols := by
            rw [hcols]
            simp
          rw [if_pos htM2, if_neg htM, lookupCell_join M _ hM d t, if_neg htM,
            lookupCell_fetchedTable t (f t) d t, if_pos rfl,
            if_pos ⟨by simp, hfa2⟩]
        · have htM2 : t ∉ (joinOuter M (fetchedTable a (f a))).cols := by
            rw [hcols]
            intro h
            rcases List.mem_append.mp h with h | h
            · exact htM h
            · simp only [List.mem_singleton] at h
              exact hta h
          rw [if_neg htM2, if_neg htM]
          simp [List.mem_cons, hta]

theorem cols_fold (f : String → List (Nat × ℚ)) :
    ∀ (L : List String) (M : PriceTable), M.rows ≠ [] →
    (L.foldl (joinStep f) M).cols
      = M.cols ++ L.filter (fun t => !(f t).isEmpty) := by
  intro L
  induction L with
  | nil => intro M _; simp
  | cons a L ih =>
    intro M hne
    simp only [List.foldl_cons, List.filter_cons]
    have hMne : M.rows.isEmpty = false := by
      cases hrw : M.rows with
      | nil => exact absurd hrw hne
      | cons x xs => rfl
    by_cases hfa : (f a).isEmpty
    · have hstep : joinStep f M a = M := by
        simp [joinStep, hfa]
      rw [hstep, ih M hne]
      simp [hfa]
    · simp only [Bool.not_eq_true] at hfa
      have hstep : joinStep f M a = joinOuter M (fetchedTable a (f a)) := by
        simp [joinStep, hfa, hMne]
      rw [hstep, ih _ (joinOuter_rows_ne _ _ hne)]
      have hcols : (joinOuter M (fetchedTable a (f a))).cols = M.cols ++ [a] := rfl
      rw [hcols, List.append_assoc]
      simp [hfa]

theorem cols_get_all_data (f : String → List (Nat × ℚ)) (L : List String) :
    (get_all_data L f).cols = L.filter (fun t => !(f t).isEmpty) := by
  unfold get_all_data
  induction L with
  | nil => rfl
  | cons a L ih =>
    simp only [List.foldl_cons, List.filter_cons]
    by_cases hfa : (f a).isEmpty
    · have hstep : joinStep f ⟨[], []⟩ a = ⟨[], []⟩ := by
        simp [joinStep, hfa]
      rw [hstep, ih]
      simp [hfa]
    · simp only [Bool.not_eq_true] at hfa
      have hfa2 : f a ≠ [] := by
        intro h
        rw [h] at hfa
        simp at hfa
      have hstep : joinStep f ⟨[], []⟩ a = fetchedTable a (f a) := by
        simp [joinStep, hfa]
      rw [hstep, cols_fold f L _ (fetchedTable_rows_ne a (f a) hfa2)]
      have hcols : (fetchedTable a (f a)).cols = [a] := rfl
      rw [hcols]
      simp [hfa]

theorem datesOf_join (A B : PriceTable) :
    datesOf (joinOuter A B) = sortedUnion (datesOf A) (datesOf B) := by
  have h1 : (joinOuter A B).rows
      = (sortedUnion (datesOf A) (datesOf B)).map
          (fun x => (x, rowAt A x ++ rowAt B x)) := rfl
  unfold datesOf
  rw [h1, List.map_map]
  have h2 : (Prod.fst ∘ fun x : Nat => (x, rowAt A x ++ rowAt B x)) = id := rfl
  rw [h2, List.map_id]
  rfl

theorem datesOf_fetchedTable (t : String) (s : List (Nat × ℚ)) :
    datesOf (fetchedTable t s) = s.map Prod.fst := by
  unfold datesOf fetchedTable
  rw [List.map_map]
  rfl

theorem datesOf_fold (f : String → List (Nat × ℚ)) :
    ∀ (L : List String) (M : PriceTable), M.rows ≠ [] → ∀ d : Nat,
    (d ∈ datesOf (L.foldl (joinStep f) M)
      ↔ d ∈ datesOf M ∨ ∃ t ∈ L, f t ≠ [] ∧ d ∈ (f t).map Prod.fst) := by
  intro L
  induction L with
  | nil =>
    intro M _ d
    simp
  | cons a L ih =>
    intro M hne d
    simp only [List.foldl_cons]
    have hMne : M.rows.isEmpty = false := by
      cases hrw : M.rows with
      | nil => exact absurd hrw hne
      | cons x xs => rfl
    by_cases hfa : (f a).isEmpty
    · have hfa2 : f a = [] := List.isEmpty_iff.mp hfa
      have hstep : joinStep f M a = M := by
        simp [joinStep, hfa]
      rw [hstep, ih M hne d]
      simp [List.mem_cons, exists_eq_or_imp, hfa2]
    · simp only [Bool.not_eq_true] at hfa
      have hfa2 : f a ≠ [] := by
        intro h
        rw [h] at hfa
        simp at hfa
      have hstep : joinStep f M a = joinOuter M (fetchedTable a (f a)) := by
        simp [joinStep, hfa, hMne]
      rw [hstep, ih _ (joinOuter_rows_ne _ _ hne) d, datesOf_join,
        mem_sortedUnion, datesOf_fetchedTable]
      simp only [List.mem_cons, exists_eq_or_imp, hfa2]
      tauto

theorem datesOf_get_all_data (f : String → List (Nat × ℚ)) (L : List String) (d : Nat) :
    d ∈ datesOf (get_all_data L f)
      ↔ ∃ t ∈ L, f t ≠ [] ∧ d ∈ (f t).map Prod.fst := by
  unfold get_all_data
  induction L with
  | nil => simp [datesOf]
  | cons a L ih =>
    simp only [List.foldl_cons]
    by_cases hfa : (f a).isEmpty
    · have hfa2 : f a = [] := List.isEmpty_iff.mp hfa
      have hstep : joinStep f ⟨[], []⟩ a = ⟨[], []⟩ := by
        simp [joinStep, hfa]
      rw [hstep, ih]
      simp [List.mem_cons, exists_eq_or_imp, hfa2]
    · simp only [Bool.not_eq_true] at hfa
      have hfa2 : f a ≠ [] := by
        intro h
        rw [h] at hfa
        simp at hfa
      have hstep : joinStep f ⟨[], []⟩ a = fetchedTable a (f a) := by
        simp [joinStep, hfa]
      rw [hstep, datesOf_fold f L _ (fetchedTable_rows_ne a (f a) hfa2) d,
        datesOf_fetchedTable]
      simp only [List.mem_cons, exists_eq_or_imp, hfa2]
      tauto

theorem lookupCell_get_all_data (f : String → List (Nat × ℚ)) (L : List String)
    (d : Nat) (t : String) :
    lookupCell (get_all_data L f) d t
      = if t ∈ L ∧ f t ≠ [] then seriesLookup (f t) d else none := by
  unfold get_all_data
  induction L with
  | nil =>
    rw [lookupCell_of_not_mem _ d t (by simp)]
    simp
  | cons a L ih =>
    simp only [List.foldl_cons]
    by_cases hfa : (f a).isEmpty
    · have hfa2 : f a = [] := List.isEmpty_iff.mp hfa
      have hstep : joinStep f ⟨[], []⟩ a = ⟨[], []⟩ := by
        simp [joinStep, hfa]
      rw [hstep, ih]
      by_cases hta : t = a
      · subst hta
        simp [hfa2]
      · simp [List.mem_cons, hta]
    · simp only [Bool.not_eq_true] at hfa
      have hfa2 : f a ≠ [] := by
        intro h
        rw [h] at hfa
        simp at hfa
      have hstep : joinStep f ⟨[], []⟩ a = fetchedTable a (f a) := by
        simp [joinStep, hfa]
      rw [hstep, lookupCell_fold f L (fetchedTable a (f a))
        (wellformed_fetchedTable a (f a)) (fetchedTable_rows_ne a (f a) hfa2) d t]
      by_cases hta : t = a
      · subst hta
        have htm : t ∈ (fetchedTable t (f t)).cols := by
          simp [fetchedTable]
        rw [if_pos htm, lookupCell_fetchedTable t (f t) d t, if_pos rfl,
          if_pos ⟨by simp, hfa2⟩]
      · have htm : t ∉ (fetchedTable a (f a)).cols := by
          intro h
          simp only [fetchedTable, List.mem_singleton] at h
          exact hta h
        rw [if_neg htm]
        simp [List.mem_cons, hta]

/-- **C1.** `get_all_data` over a ticker set with at least one
successful fetch: the columns are exactly the tickers whose fetch
returned a non-empty series (in iteration order), the date index is the
union of the dates of all successful series, and the table's content --
the date-to-ticker-to-price mapping, together with the column set -- is
the same for every iteration order of the deduplicated ticker set. -/
theorem c1_aggregate_characterization (f : String → List (Nat × ℚ))
    (L1 L2 : List String) (hperm : L1.Perm L2)
    (hsucc : ∃ t ∈ L1, f t ≠ []) :
    ((get_all_data L1 f).cols = L1.filter (fun t => !(f t).isEmpty))
    ∧ (∀ d, d ∈ datesOf (get_all_data L1 f)
        ↔ ∃ t ∈ L1, f t ≠ [] ∧ d ∈ (f t).map Prod.fst)
    ∧ (∀ t, t ∈ (get_all_data L1 f).cols ↔ t ∈ (get_all_data L2 f).cols)
    ∧ (∀ d t, lookupCell (get_all_data L1 f) d t
        = lookupCell (get_all_data L2 f) d t) := by
  have hs := hsucc
  clear hs
  refine ⟨cols_get_all_data f L1, fun d => datesOf_get_all_data f L1 d, ?_, ?_⟩
  · intro t
    rw [cols_get_all_data f L1, cols_get_all_data f L2]
    constructor <;> intro h <;> rcases List.mem_filter.mp h with ⟨h1, h2⟩
    · exact List.mem_filter.mpr ⟨hperm.mem_iff.mp h1, h2⟩
    · exact List.mem_filter.mpr ⟨hperm.mem_iff.mpr h1, h2⟩
  · intro d t
    rw [lookupCell_get_all_data f L1 d t, lookupCell_get_all_data f L2 d t]
    by_cases h : t ∈ L1 ∧ f t ≠ []
    · rw [if_pos h, if_pos ⟨hperm.mem_iff.mp h.1, h.2⟩]
    · rw [if_neg h, if_neg (fun hc => h ⟨hperm.mem_iff.mpr hc.1, hc.2⟩)]

/-- A concrete two-ticker fetch outcome: "AAA" succeeds with two
records, "BBB" comes back empty. -/
def fetchW (t : String) : List (Nat × ℚ) :=
  if t = "AAA" then [(1, 10), (2, 11)] else []

theorem c1_aggregate_characterization_witness :
    (["AAA", "BBB"].Perm ["BBB", "AAA"])
    ∧ (∃ t ∈ ["AAA", "BBB"], fetchW t ≠ [])
    ∧ (((get_all_data ["AAA", "BBB"] fetchW).cols
        = (["AAA", "BBB"]).filter (fun t => !(fetchW t).isEmpty))
      ∧ (∀ d, d ∈ datesOf (get_all_data ["AAA", "BBB"] fetchW)
          ↔ ∃ t ∈ ["AAA", "BBB"], fetchW t ≠ [] ∧ d ∈ (fetchW t).map Prod.fst)
      ∧ (∀ t, t ∈ (get_all_data ["AAA", "BBB"] fetchW).cols
          ↔ t ∈ (get_all_data ["BBB", "AAA"] fetchW).cols)
      ∧ (∀ d t, lookupCell (get_all_data ["AAA", "BBB"] fetchW) d t
          = lookupCell (get_all_data ["BBB", "AAA"] fetchW) d t)) :=
  ⟨List.Perm.swap "BBB" "AAA" [], by decide,
   c1_aggregate_characterization fetchW ["AAA", "BBB"] ["BBB", "AAA"]
     (List.Perm.swap "BBB" "AAA" []) (by decide)⟩

/-- `[t for t in tickers if t in df.columns]` (lines 134 and 153): the
portfolio's tickers that survived aggregation, in portfolio order. -/
def validTickers (cols : List String) (ts : List String) : List String :=
  ts.filter (fun t => decide (t ∈ cols))

/-- The arithmetic mean of a list of values, `none` on the empty list
(pandas `mean` over no values is `NaN`). -/
def meanOpt (l : List ℚ) : Option ℚ :=
  if l.isEmpty then none else some (l.sum / l.length)

/-- The cell of one stored row at the named column. -/
def rowCell (cols : List String) (cells : List (Option ℚ)) (t : String) : Option ℚ :=
  match idx? t cols with
  | some j => cells.getD j none
  | none => none

/-- `normalized_df[valid_tickers].mean(axis=1)` at one row (line 155):
the mean of the row's present values in the valid-ticker columns
(pandas skips `NaN` cells; after cleaning there are none). -/
def portfolioRowValue (cols : List String) (valid : List String)
    (cells : List (Option ℚ)) : Option ℚ :=
  meanOpt (valid.filterMap (rowCell cols cells))

/-- `calculate_portfolio_performance` (lines 145-157): clean, return the
empty frame when nothing survives, normalize, then add one column per
portfolio that has at least one valid ticker, holding the per-date mean
of its valid constituents' normalized values.  Portfolios are an
association list in dict insertion order. -/
def calculate_portfolio_performance (T : PriceTable)
    (ps : List (String × List String)) : PriceTable :=
  let c := cleanTable T
  if c.rows.isEmpty then ⟨[], []⟩
  else
    let n := normalizeTable c
    let qual := ps.filter (fun p => !(validTickers n.cols p.2).isEmpty)
    ⟨qual.map Prod.fst,
     n.rows.map (fun r =>
       (r.1, qual.map (fun p => portfolioRowValue n.cols (validTickers n.cols p.2) r.2)))⟩

/-- The user-facing conditions `calculate_portfolio_performance` reports
while computing: the function body (lines 145-157) contains no warning,
error, or status call at all, so the emitted list is always empty; in
particular a portfolio skipped for having no valid tickers (line 154)
is dropped without any report. -/
def calculate_portfolio_performance_reports (_T : PriceTable)
    (_ps : List (String × List String)) : List String := []

/-- Insert one return record into a descending-sorted list, in front of
the first entry with an equal-or-smaller return, so earlier input
records stay in front of later ones with the same return. -/
def insRetDesc (x : String × ℚ) : List (String × ℚ) → List (String × ℚ)
  | [] => [x]
  | y :: ys => if y.2 ≤ x.2 then x :: y :: ys else y :: insRetDesc x ys

/-- `p_df.sort_values("Return", ascending=False)` (line 140): sort the
records by return, descending.  On the frames this app builds (at most
ten rows) numpy's default sort is an insertion sort and pandas'
`nargsort` preserves the input order of tied keys, so the sort is
modelled as a stable insertion sort. -/
def sortRetDesc (l : List (String × ℚ)) : List (String × ℚ) :=
  l.foldr insRetDesc []

/-- The per-ticker return records of one portfolio (lines 132-136):
for each ticker that is a column of the cleaned frame, the pair of the
ticker and its total return between the first and last row. -/
def rawRecords (df : PriceTable) (ts : List String) : List (String × ℚ) :=
  ts.filterMap (fun t =>
    if t ∈ df.cols then (colTotalReturn df t).map (fun r => (t, r)) else none)

/-- `get_stock_returns` (lines 119-143): clean the master frame, return
the empty map when nothing survives, then for every portfolio except
the benchmark "SPY" record its return table, sorted by return
descending.  A portfolio none of whose tickers survived gets an empty
table (line 138-141 keep the empty frame). -/
def get_stock_returns (T : PriceTable) (ps : List (String × List String)) :
    List (String × List (String × ℚ)) :=
  let df := cleanTable T
  if df.rows.isEmpty then []
  else
    ps.filterMap (fun p =>
      if p.1 = "SPY" then none
      else some (p.1, sortRetDesc (rawRecords df p.2)))

/-- The observable outcome of the HTTP request and JSON decoding in
`fetch_stock_data` (lines 79-95): `failure` is a transport error or any
exception raised while decoding the payload (all caught by the
`except`); `noHistorical` a decoded JSON object without the
"historical" field; `historical` the list of records, each reduced to
its date and adjusted-close fields (the other record fields are dropped
by line 87). -/
inductive FetchResponse where
  | failure : FetchResponse
  | noHistorical : FetchResponse
  | historical : List (Nat × ℚ) → FetchResponse
deriving DecidableEq

/-- Insert one record into a date-ascending-sorted list. -/
def insDateAsc (x : Nat × ℚ) : List (Nat × ℚ) → List (Nat × ℚ)
  | [] => [x]
  | y :: ys => if x.1 ≤ y.1 then x :: y :: ys else y :: insDateAsc x ys

/-- `df.sort_values('date')` (line 86): sort the records ascending by
date (the API emits one record per trading day, so dates are unique and
tie order is immaterial). -/
def sortByDate (recs : List (Nat × ℚ)) : List (Nat × ℚ) :=
  recs.foldr insDateAsc []

/-- `fetch_stock_data` (lines 70-95) given the response outcome: on a
well-formed payload with a non-empty "historical" list, the
date-sorted single-column series named by the ticker; otherwise the
empty result (`None`).  An empty "historical" list also yields the
empty result: `pd.DataFrame([])` has no 'date' column, so line 85
raises a `KeyError` that the `except` turns into an empty frame.  The
function never propagates an exception: every branch returns. -/
def fetch_stock_data (ticker : String) (resp : FetchResponse) :
    Option (String × List (Nat × ℚ)) :=
  match resp with
  | .failure => none
  | .noHistorical => none
  | .historical recs =>
    if recs.isEmpty then none else some (ticker, sortByDate recs)

theorem insRetDesc_perm (x : String × ℚ) :
    ∀ l : List (String × ℚ), (insRetDesc x l).Perm (x :: l) := by
  intro l
  induction l with
  | nil => simp [insRetDesc]
  | cons y ys ih =>
    by_cases h : y.2 ≤ x.2
    · simp [insRetDesc, h]
    · simp only [insRetDesc, if_neg h]
      exact (ih.cons y).trans (List.Perm.swap x y ys)

theorem mem_insRetDesc {x z : String × ℚ} {l : List (String × ℚ)}
    (h : z ∈ insRetDesc x l) : z = x ∨ z ∈ l := by
  have := (insRetDesc_perm x l).mem_iff.mp h
  simpa using this

theorem insRetDesc_pairwise (x : String × ℚ) :
    ∀ l : List (String × ℚ),
    List.Pairwise (fun a b : String × ℚ => b.2 ≤ a.2) l →
    List.Pairwise (fun a b : String × ℚ => b.2 ≤ a.2) (insRetDesc x l) := by
  intro l
  induction l with
  | nil => intro _; simp [insRetDesc]
  | cons y ys ih =>
    intro h
    rcases List.pairwise_cons.mp h with ⟨h1, h2⟩
    by_cases hyx : y.2 ≤ x.2
    · simp only [insRetDesc, if_pos hyx]
      refine List.pairwise_cons.mpr ⟨?_, h⟩
      intro z hz
      rcases List.mem_cons.mp hz with hz | hz
      · rw [hz]
        exact hyx
      · exact le_trans (h1 z hz) hyx
    · simp only [insRetDesc, if_neg hyx]
      refine List.pairwise_cons.mpr ⟨?_, ih h2⟩
      intro z hz
      rcases mem_insRetDesc hz with hz | hz
      · rw [hz]
        exact le_of_lt (lt_of_not_le hyx)
      · exact h1 z hz

theorem sortRetDesc_perm (l : List (String × ℚ)) : (sortRetDesc l).Perm l := by
  induction l with
  | nil => simp [sortRetDesc]
  | cons a l ih =>
    have h1 : sortRetDesc (a :: l) = insRetDesc a (sortRetDesc l) := rfl
    rw [h1]
    exact (insRetDesc_perm a (sortRetDesc l)).trans (ih.cons a)

theorem sortRetDesc_pairwise (l : List (String × ℚ)) :
    List.Pairwise (fun a b : String × ℚ => b.2 ≤ a.2) (sortRetDesc l) := by
  induction l with
  | nil => simp [sortRetDesc]
  | cons a l ih => exact insRetDesc_pairwise a (sortRetDesc l) ih

theorem insRetDesc_filter (x : String × ℚ) (c : ℚ) :
    ∀ l : List (String × ℚ),
    (insRetDesc x l).filter (fun z => decide (z.2 = c))
      = (if x.2 = c then [x] else [])
        ++ l.filter (fun z => decide (z.2 = c)) := by
  intro l
  induction l with
  | nil =>
    by_cases hx : x.2 = c
    · simp [insRetDesc, List.filter_cons, hx]
    · simp [insRetDesc, List.filter_cons, hx]
  | cons y ys ih =>
    by_cases hyx : y.2 ≤ x.2
    · simp only [insRetDesc, if_pos hyx, List.filter_cons]
      by_cases hx : x.2 = c <;> simp [hx]
    · simp only [insRetDesc, if_neg hyx, List.filter_cons, ih]
      by_cases hy : y.2 = c
      · have hx : ¬ x.2 = c := by
          intro hx
          exact hyx (le_of_eq (hy.trans hx.symm))
        simp [hy, hx]
      · by_cases hx : x.2 = c <;> simp [hy, hx]

theorem sortRetDesc_filter (c : ℚ) : ∀ l : List (String × ℚ),
    (sortRetDesc l).filter (fun z => decide (z.2 = c))
      = l.filter (fun z => decide (z.2 = c)) := by
  intro l
  induction l with
  | nil => rfl
  | cons a l ih =>
    have h1 : sortRetDesc (a :: l) = insRetDesc a (sortRetDesc l) := rfl
    rw [h1, insRetDesc_filter, ih, List.filter_cons]
    by_cases ha : a.2 = c <;> simp [ha]

theorem insDateAsc_perm (x : Nat × ℚ) :
    ∀ l : List (Nat × ℚ), (insDateAsc x l).Perm (x :: l) := by
  intro l
  induction l with
  | nil => simp [insDateAsc]
  | cons y ys ih =>
    by_cases h : x.1 ≤ y.1
    · simp [insDateAsc, h]
    · simp only [insDateAsc, if_neg h]
      exact (ih.cons y).trans (List.Perm.swap x y ys)

theorem mem_insDateAsc {x z : Nat × ℚ} {l : List (Nat × ℚ)}
    (h : z ∈ insDateAsc x l) : z = x ∨ z ∈ l := by
  have := (insDateAsc_perm x l).mem_iff.mp h
  simpa using this

theorem insDateAsc_pairwise (x : Nat × ℚ) :
    ∀ l : List (Nat × ℚ),
    List.Pairwise (fun a b : Nat × ℚ => a.1 ≤ b.1) l →
    List.Pairwise (fun a b : Nat × ℚ => a.1 ≤ b.1) (insDateAsc x l) := by
  intro l
  induction l with
  | nil => intro _; simp [insDateAsc]
  | cons y ys ih =>
    intro h
    rcases List.pairwise_cons.mp h with ⟨h1, h2⟩
    by_cases hxy : x.1 ≤ y.1
    · simp only [insDateAsc, if_pos hxy]
      refine List.pairwise_cons.mpr ⟨?_, h⟩
      intro z hz
      rcases List.mem_cons.mp hz with hz | hz
      · rw [hz]
        exact hxy
      · exact le_trans hxy (h1 z hz)
    · simp only [insDateAsc, if_neg hxy]
      refine List.pairwise_cons.mpr ⟨?_, ih h2⟩
      intro z hz
      rcases mem_insDateAsc hz with hz | hz
      · rw [hz]
        exact le_of_lt (lt_of_not_le hxy)
      · exact h1 z hz

theorem sortByDate_perm (l : List (Nat × ℚ)) : (sortByDate l).Perm l := by
  induction l with
  | nil => simp [sortByDate]
  | cons a l ih =>
    have h1 : sortByDate (a :: l) = insDateAsc a (sortByDate l) := rfl
    rw [h1]
    exact (insDateAsc_perm a (sortByDate l)).trans (ih.cons a)

theorem sortByDate_pairwise (l : List (Nat × ℚ)) :
    List.Pairwise (fun a b : Nat × ℚ => a.1 ≤ b.1) (sortByDate l) := by
  induction l with
  | nil => simp [sortByDate]
  | cons a l ih => exact insDateAsc_pairwise a (sortByDate l) ih

/-- **C7.** The fetcher returns a date-ascending-sorted single-column
series named by the ticker exactly when the response is a well-formed
object whose historical-data list is non-empty; on a transport failure,
a decoding exception, a missing historical field, or an empty
historical list it returns the empty result.  The embedded function is
total: no exception can reach the caller, so one failed ticker cannot
abort the batch. -/
theorem c7_fetch_behavior (ticker : String) (resp : FetchResponse) :
    (∀ recs, resp = FetchResponse.historical recs → recs ≠ [] →
      fetch_stock_data ticker resp = some (ticker, sortByDate recs)
      ∧ List.Pairwise (fun a b : Nat × ℚ => a.1 ≤ b.1) (sortByDate recs)
      ∧ (sortByDate recs).Perm recs)
    ∧ ((fetch_stock_data ticker resp).isSome = true
      ↔ ∃ recs, resp = FetchResponse.historical recs ∧ recs ≠ []) := by
  constructor
  · intro recs hresp hne
    subst hresp
    have hni : recs.isEmpty = false := by
      cases hr : recs with
      | nil => exact absurd hr hne
      | cons a l => rfl
    refine ⟨?_, sortByDate_pairwise recs, sortByDate_perm recs⟩
    simp [fetch_stock_data, hni]
  · cases resp with
    | failure => simp [fetch_stock_data]
    | noHistorical => simp [fetch_stock_data]
    | historical recs =>
      by_cases hne : recs.isEmpty
      · have h0 : recs = [] := List.isEmpty_iff.mp hne
        subst h0
        simp [fetch_stock_data]
      · simp only [Bool.not_eq_true] at hne
        have h2 : recs ≠ [] := by
          intro h
          rw [h] at hne
          simp at hne
        constructor
        · intro _
          exact ⟨recs, rfl, h2⟩
        · intro _
          simp [fetch_stock_data, hne]

theorem c7_fetch_behavior_witness :
    (fetch_stock_data "AAPL" (FetchResponse.historical [(5, 2), (3, 1)])
        = some ("AAPL", sortByDate [(5, 2), (3, 1)])
      ∧ List.Pairwise (fun a b : Nat × ℚ => a.1 ≤ b.1) (sortByDate [(5, 2), (3, 1)])
      ∧ (sortByDate [(5, 2), (3, 1)]).Perm [(5, 2), (3, 1)])
    ∧ sortByDate [((5:Nat), (2:ℚ)), (3, 1)] = [(3, 1), (5, 2)] :=
  ⟨(c7_fetch_behavior "AAPL" (FetchResponse.historical [(5, 2), (3, 1)])).1
      [(5, 2), (3, 1)] rfl (by decide),
   by decide⟩

/-- A cleaned two-ticker table in which both tickers A and B have a
total return of exactly 100 percent: a tie for the ranking sort. -/
def T9 : PriceTable :=
  ⟨["A", "B"], [(0, [some 5, some 10]), (1, [some 10, some 20])]⟩

/-- **C9 (counterexample).** Two runs on the same table, with the same
two tied tickers, produce opposite relative orders depending only on
the portfolio-list order (`["B","A"]` versus `["A","B"]`): the sort of
line 140 keys on the Return column alone, so the relative order of tied
tickers follows the portfolio definition's order, not the ticker
names -- no ordering determined by the ticker names yields both
outputs. -/
theorem c9_tiebreak_counterexample :
    get_stock_returns T9 [("P", ["B", "A"])] = [("P", [("B", 100), ("A", 100)])]
    ∧ get_stock_returns T9 [("P", ["A", "B"])] = [("P", [("A", 100), ("B", 100)])]
    ∧ [(("B" : String), (100 : ℚ)), ("A", 100)]
        ≠ [(("A" : String), (100 : ℚ)), ("B", 100)] := by
  refine ⟨?_, ?_, by decide⟩
  · norm_num [get_stock_returns, T9, cleanTable, dropnaRows, ffillRows, fillRow,
      fillCell, rawRecords, colTotalReturn, idx?, sortRetDesc, insRetDesc,
      List.filterMap_cons, List.filterMap_nil, List.foldr_cons, List.foldr_nil,
      (show ¬("P" = "SPY") by decide), (show ¬("A" = "B") by decide),
      (show ¬("B" = "A") by decide)]
  · norm_num [get_stock_returns, T9, cleanTable, dropnaRows, ffillRows, fillRow,
      fillCell, rawRecords, colTotalReturn, idx?, sortRetDesc, insRetDesc,
      List.filterMap_cons, List.filterMap_nil, List.foldr_cons, List.foldr_nil,
      (show ¬("P" = "SPY") by decide), (show ¬("A" = "B") by decide),
      (show ¬("B" = "A") by decide)]

theorem get_stock_returns_mem (T : PriceTable) (ps : List (String × List String))
    (p : String) (ts : List String) (hmem : (p, ts) ∈ ps) (hp : p ≠ "SPY")
    (hne : (cleanTable T).rows.isEmpty = false) :
    (p, sortRetDesc (rawRecords (cleanTable T) ts)) ∈ get_stock_returns T ps := by
  unfold get_stock_returns
  simp only [hne, Bool.false_eq_true, if_false]
  apply List.mem_filterMap.mpr
  refine ⟨(p, ts), hmem, ?_⟩
  simp [hp]

/-- **C9 (amended).** Every ranked list `get_stock_returns` emits for a
portfolio is its constituents' return records sorted by return
descending; tied returns keep their order from the portfolio
definition list (the sort is stable), so the output is a deterministic
function of the input table and the portfolio definition -- the tie
order is positional, not derived from the ticker names. -/
theorem c9_ranking_sorted_stable (T : PriceTable) (ps : List (String × List String))
    (p : String) (ts : List String) (hmem : (p, ts) ∈ ps) (hp : p ≠ "SPY")
    (hne : (cleanTable T).rows.isEmpty = false) :
    (p, sortRetDesc (rawRecords (cleanTable T) ts)) ∈ get_stock_returns T ps
    ∧ List.Pairwise (fun a b : String × ℚ => b.2 ≤ a.2)
        (sortRetDesc (rawRecords (cleanTable T) ts))
    ∧ (sortRetDesc (rawRecords (cleanTable T) ts)).Perm
        (rawRecords (cleanTable T) ts)
    ∧ (∀ c : ℚ,
        (sortRetDesc (rawRecords (cleanTable T) ts)).filter (fun z => decide (z.2 = c))
          = (rawRecords (cleanTable T) ts).filter (fun z => decide (z.2 = c))) :=
  ⟨get_stock_returns_mem T ps p ts hmem hp hne,
   sortRetDesc_pairwise _, sortRetDesc_perm _, fun c => sortRetDesc_filter c _⟩

theorem c9_ranking_sorted_stable_witness :
    (("P", ["B", "A"]) ∈ [("P", ["B", "A"])]
      ∧ ("P" : String) ≠ "SPY"
      ∧ (cleanTable T9).rows.isEmpty = false)
    ∧ (("P", sortRetDesc (rawRecords (cleanTable T9) ["B", "A"]))
          ∈ get_stock_returns T9 [("P", ["B", "A"])]
      ∧ List.Pairwise (fun a b : String × ℚ => b.2 ≤ a.2)
          (sortRetDesc (rawRecords (cleanTable T9) ["B", "A"]))
      ∧ (sortRetDesc (rawRecords (cleanTable T9) ["B", "A"])).Perm
          (rawRecords (cleanTable T9) ["B", "A"])
      ∧ (∀ c : ℚ,
          (sortRetDesc (rawRecords (cleanTable T9) ["B", "A"])).filter
              (fun z => decide (z.2 = c))
            = (rawRecords (cleanTable T9) ["B", "A"]).filter
                (fun z => decide (z.2 = c)))) :=
  ⟨⟨by decide, by decide, by decide⟩,
   c9_ranking_sorted_stable T9 [("P", ["B", "A"])] "P" ["B", "A"]
     (by decide) (by decide) (by decide)⟩

/-- **C10 (counterexample).** On an empty master table the cleaned
table is empty and `get_stock_returns` returns the empty map (line
122), so the non-benchmark portfolio "ChatGPT" -- none of whose
tickers is a column of the cleaned table -- has no entry at all,
contradicting the claim's universal guarantee of an entry. -/
theorem c10_empty_clean_counterexample :
    get_stock_returns ⟨[], []⟩ [("ChatGPT", ["MSFT"])] = []
    ∧ ("ChatGPT" : String) ≠ "SPY"
    ∧ ("MSFT" : String) ∉ (cleanTable ⟨[], []⟩).cols := by
  refine ⟨by decide, by decide, by decide⟩

/-- **C10 (amended).** Whenever the cleaned table is non-empty, the
returns map has an entry for every non-benchmark portfolio, and a
portfolio none of whose tickers survived gets the empty record table;
when the cleaned table is empty the whole map is empty instead. -/
theorem c10_returns_entry (T : PriceTable) (ps : List (String × List String))
    (p : String) (ts : List String) (hmem : (p, ts) ∈ ps) (hp : p ≠ "SPY") :
    ((cleanTable T).rows.isEmpty = false →
      (∀ t ∈ ts, t ∉ (cleanTable T).cols) →
      (p, ([] : List (String × ℚ))) ∈ get_stock_returns T ps)
    ∧ ((cleanTable T).rows.isEmpty = true → get_stock_returns T ps = []) := by
  constructor
  · intro hne habs
    have hraw : rawRecords (cleanTable T) ts = [] := by
      apply List.filterMap_eq_nil_iff.mpr
      intro t ht
      simp [habs t ht]
    have h2 := get_stock_returns_mem T ps p ts hmem hp hne
    rw [hraw] at h2
    exact h2
  · intro he
    simp [get_stock_returns, he]

theorem c10_returns_entry_witness :
    (("ChatGPT", ["MSFT"]) ∈ [("ChatGPT", ["MSFT"])]
      ∧ ("ChatGPT" : String) ≠ "SPY")
    ∧ (((cleanTable T9).rows.isEmpty = false →
        (∀ t ∈ ["MSFT"], t ∉ (cleanTable T9).cols) →
        ("ChatGPT", ([] : List (String × ℚ)))
          ∈ get_stock_returns T9 [("ChatGPT", ["MSFT"])])
      ∧ ((cleanTable T9).rows.isEmpty = true →
        get_stock_returns T9 [("ChatGPT", ["MSFT"])] = [])) :=
  ⟨⟨by decide, by decide⟩,
   c10_returns_entry T9 [("ChatGPT", ["MSFT"])] "ChatGPT" ["MSFT"]
     (by decide) (by decide)⟩

/-- A table whose only surviving ticker is A, and two portfolios: P
holds A while Q holds only the never-fetched ticker Z. -/
def T8 : PriceTable := ⟨["A"], [(0, [some 1]), (1, [some 2])]⟩

def ps8 : List (String × List String) := [("P", ["A"]), ("Q", ["Z"])]

/-- **C8 (counterexample).** The portfolio Q, none of whose tickers is
a column of the normalized table, is omitted from the performance
frame's columns -- but nothing is reported anywhere: the function body
emits no message, so the omission is silent, contradicting the claim
that it is surfaced as a distinct condition. -/
theorem c8_silent_omission_counterexample :
    ("Q" : String) ∉ (calculate_portfolio_performance T8 ps8).cols
    ∧ (calculate_portfolio_performance T8 ps8).cols = ["P"]
    ∧ calculate_portfolio_performance_reports T8 ps8 = [] := by
  refine ⟨by decide, by decide, rfl⟩

theorem nodup_key_unique {α : Type} :
    ∀ (l : List (String × α)) (p : String) (x : α),
    (l.map Prod.fst).Nodup → (p, x) ∈ l → ∀ q ∈ l, q.1 = p → q = (p, x) := by
  intro l
  induction l with
  | nil =>
    intro p x _ h
    simp at h
  | cons a l ih =>
    intro p x hnd hmem q hq hqp
    simp only [List.map_cons, List.nodup_cons] at hnd
    obtain ⟨hna, hnd2⟩ := hnd
    rcases List.mem_cons.mp hmem with hm | hm
    · rcases List.mem_cons.mp hq with hq2 | hq2
      · rw [hq2, ← hm]
      · exfalso
        apply hna
        have hap : a.1 = p := by rw [← hm]
        rw [hap]
        exact List.mem_map.mpr ⟨q, hq2, hqp⟩
    · rcases List.mem_cons.mp hq with hq2 | hq2
      · exfalso
        apply hna
        have hap : a.1 = p := by
          rw [← hq2]
          exact hqp
        rw [hap]
        exact List.mem_map.mpr ⟨(p, x), hm, rfl⟩
      · exact ih p x hnd2 hm q hq2 hqp

/-- **C8 (amended).** A portfolio none of whose tickers is a column of
the normalized table is omitted from the performance frame entirely --
no column, rather than an empty or zeroed series -- and the omission is
silent: the function reports nothing to any error-handling layer. -/
theorem c8_portfolio_omitted_silently (T : PriceTable)
    (ps : List (String × List String)) (p : String) (ts : List String)
    (hmem : (p, ts) ∈ ps) (hnodup : (ps.map Prod.fst).Nodup)
    (habs : ∀ t ∈ ts, t ∉ (normalizeTable (cleanTable T)).cols) :
    p ∉ (calculate_portfolio_performance T ps).cols
    ∧ calculate_portfolio_performance_reports T ps = [] := by
  refine ⟨?_, rfl⟩
  intro hmc
  unfold calculate_portfolio_performance at hmc
  by_cases hc : (cleanTable T).rows.isEmpty
  · simp only [hc, if_true] at hmc
    simp at hmc
  · simp only [Bool.not_eq_true] at hc
    simp only [hc, Bool.false_eq_true, if_false] at hmc
    rcases List.mem_map.mp hmc with ⟨q, hq, hqp⟩
    have hqps : q ∈ ps := List.mem_of_mem_filter hq
    have hfil := List.of_mem_filter hq
    have hqe : q = (p, ts) := nodup_key_unique ps p ts hnodup hmem q hqps hqp
    rw [hqe] at hfil
    have hval : validTickers (normalizeTable (cleanTable T)).cols ts = [] := by
      apply List.filter_eq_nil_iff.mpr
      intro t ht
      simp [habs t ht]
    simp only [hval] at hfil
    simp at hfil

theorem c8_portfolio_omitted_silently_witness :
    (("Q", ["Z"]) ∈ ps8 ∧ (ps8.map Prod.fst).Nodup
      ∧ (∀ t ∈ ["Z"], t ∉ (normalizeTable (cleanTable T8)).cols))
    ∧ (("Q" : String) ∉ (calculate_portfolio_performance T8 ps8).cols
      ∧ calculate_portfolio_performance_reports T8 ps8 = []) :=
  ⟨⟨by decide, by decide, by decide⟩,
   c8_portfolio_omitted_silently T8 ps8 "Q" ["Z"] (by decide) (by decide) (by decide)⟩

theorem nodup_idx_map {α β : Type} (f : String × α → β) (dflt : β) :
    ∀ (l : List (String × α)) (p : String) (x : α),
    (l.map Prod.fst).Nodup → (p, x) ∈ l →
    ∃ j, idx? p (l.map Prod.fst) = some j ∧ (l.map f).getD j dflt = f (p, x) := by
  intro l
  induction l with
  | nil =>
    intro p x _ h
    simp at h
  | cons a l ih =>
    intro p x hnd hmem
    simp only [List.map_cons, List.nodup_cons] at hnd
    obtain ⟨hna, hnd2⟩ := hnd
    by_cases hap : a.1 = p
    · have ha : a = (p, x) := by
        rcases List.mem_cons.mp hmem with hm | hm
        · exact hm.symm
        · exact absurd (hap ▸ List.mem_map.mpr ⟨(p, x), hm, rfl⟩) hna
      refine ⟨0, ?_, ?_⟩
      · simp [List.map_cons, idx?, hap]
      · simp [List.map_cons, ha]
    · have hm : (p, x) ∈ l := by
        rcases List.mem_cons.mp hmem with hm | hm
        · exact absurd (by rw [← hm]) hap
        · exact hm
      obtain ⟨j, hj, hg⟩ := ih p x hnd2 hm
      refine ⟨j + 1, ?_, ?_⟩
      · simp [List.map_cons, idx?, hap, hj]
      · simpa [List.map_cons] using hg

theorem find?_rows_map (rows : List (Nat × List (Option ℚ)))
    (G : Nat × List (Option ℚ) → List (Option ℚ)) (d : Nat) :
    (rows.map (fun r => (r.1, G r))).find? (fun r => r.1 == d)
      = (rows.find? (fun r => r.1 == d)).map (fun r => (r.1, G r)) := by
  have hp : ((fun r : Nat × List (Option ℚ) => r.1 == d)
        ∘ (fun r : Nat × List (Option ℚ) => (r.1, G r)))
      = (fun r : Nat × List (Option ℚ) => r.1 == d) := by
    funext r
    simp [Function.comp]
  rw [List.find?_map, hp]

theorem lookupCell_performance (T : PriceTable) (ps : List (String × List String))
    (p : String) (ts : List String) (hmem : (p, ts) ∈ ps)
    (hnodup : (ps.map Prod.fst).Nodup)
    (hvalid : validTickers (normalizeTable (cleanTable T)).cols ts ≠ [])
    (hne : (cleanTable T).rows.isEmpty = false) (d : Nat) :
    lookupCell (calculate_portfolio_performance T ps) d p
      = meanOpt ((validTickers (normalizeTable (cleanTable T)).cols ts).filterMap
          (fun t => lookupCell (normalizeTable (cleanTable T)) d t)) := by
  have hvne : (validTickers (normalizeTable (cleanTable T)).cols ts).isEmpty = false := by
    cases hv : validTickers (normalizeTable (cleanTable T)).cols ts with
    | nil => exact absurd hv hvalid
    | cons a l => rfl
  have hq : (p, ts) ∈ ps.filter
      (fun q => !(validTickers (normalizeTable (cleanTable T)).cols q.2).isEmpty) :=
    List.mem_filter.mpr ⟨hmem, by simp [hvne]⟩
  have hnd2 : ((ps.filter
      (fun q => !(validTickers (normalizeTable (cleanTable T)).cols q.2).isEmpty)).map
        Prod.fst).Nodup :=
    List.Nodup.sublist (List.Sublist.map Prod.fst (List.filter_sublist ps)) hnodup
  have hcalc : calculate_portfolio_performance T ps
      = ⟨(ps.filter
            (fun q => !(validTickers (normalizeTable (cleanTable T)).cols q.2).isEmpty)).map
          Prod.fst,
         (normalizeTable (cleanTable T)).rows.map (fun r =>
           (r.1,
            (ps.filter
               (fun q => !(validTickers (normalizeTable (cleanTable T)).cols q.2).isEmpty)).map
              (fun q => portfolioRowValue (normalizeTable (cleanTable T)).cols
                (validTickers (normalizeTable (cleanTable T)).cols q.2) r.2)))⟩ := by
    unfold calculate_portfolio_performance
    simp only [hne, Bool.false_eq_true, if_false]
  have hcols2 : (calculate_portfolio_performance T ps).cols
      = (ps.filter
          (fun q => !(validTickers (normalizeTable (cleanTable T)).cols q.2).isEmpty)).map
        Prod.fst := by
    rw [hcalc]
  have hrows2 : (calculate_portfolio_performance T ps).rows
      = (normalizeTable (cleanTable T)).rows.map (fun r =>
          (r.1,
           (ps.filter
              (fun q => !(validTickers (normalizeTable (cleanTable T)).cols q.2).isEmpty)).map
             (fun q => portfolioRowValue (normalizeTable (cleanTable T)).cols
               (validTickers (normalizeTable (cleanTable T)).cols q.2) r.2))) := by
    rw [hcalc]
  cases hfr : (normalizeTable (cleanTable T)).rows.find? (fun r => r.1 == d) with
  | none =>
    obtain ⟨j, hj, _⟩ := nodup_idx_map (fun q => q.1) "" _ p ts hnd2 hq
    rw [lookupCell_eq_bind _ d p j (by rw [hcols2]; exact hj), hrows2,
      find?_rows_map, hfr]
    simp only [Option.map_none', Option.none_bind]
    have hfm : (validTickers (normalizeTable (cleanTable T)).cols ts).filterMap
        (fun t => lookupCell (normalizeTable (cleanTable T)) d t) = [] := by
      apply List.filterMap_eq_nil_iff.mpr
      intro t _
      unfold lookupCell
      cases idx? t (normalizeTable (cleanTable T)).cols with
      | none => rfl
      | some j2 => rw [hfr]
    rw [hfm]
    simp [meanOpt]
  | some r =>
    obtain ⟨j, hj, hg⟩ := nodup_idx_map
      (fun q => portfolioRowValue (normalizeTable (cleanTable T)).cols
        (validTickers (normalizeTable (cleanTable T)).cols q.2) r.2) none _ p ts hnd2 hq
    rw [lookupCell_eq_bind _ d p j (by rw [hcols2]; exact hj), hrows2,
      find?_rows_map, hfr]
    simp only [Option.map_some', Option.some_bind]
    rw [hg]
    unfold portfolioRowValue
    congr 1
    apply List.filterMap_congr
    intro t _
    unfold rowCell lookupCell
    cases idx? t (normalizeTable (cleanTable T)).cols with
    | none => rfl
    | some j2 => rw [hfr]

/-- The spec's three-ticker scenario: prices A:[100,110], B:[50,45],
C:[200,220] on two dates, one equal-weighted portfolio P={A,B,C}. -/
def T4 : PriceTable :=
  ⟨["A", "B", "C"],
   [(0, [some 100, some 50, some 200]), (1, [some 110, some 45, some 220])]⟩

def ps4 : List (String × List String) := [("P", ["A", "B", "C"])]

/-- **C4.** For a portfolio with at least one surviving constituent,
`calculate_portfolio_performance` holds, at every date, the arithmetic
mean of the surviving constituents' normalized values; on the concrete
scenario the portfolio P is 100 at the first date, mean(110,90,110) =
310/3 at the second, and its total return is 10/3 percent. -/
theorem c4_performance_equal_weight (T : PriceTable)
    (ps : List (String × List String)) (p : String) (ts : List String)
    (hmem : (p, ts) ∈ ps) (hnodup : (ps.map Prod.fst).Nodup)
    (hvalid : validTickers (normalizeTable (cleanTable T)).cols ts ≠ [])
    (hne : (cleanTable T).rows.isEmpty = false) :
    (∀ d, lookupCell (calculate_portfolio_performance T ps) d p
      = meanOpt ((validTickers (normalizeTable (cleanTable T)).cols ts).filterMap
          (fun t => lookupCell (normalizeTable (cleanTable T)) d t)))
    ∧ lookupCell (calculate_portfolio_performance T4 ps4) 0 "P" = some 100
    ∧ lookupCell (calculate_portfolio_performance T4 ps4) 1 "P" = some (310 / 3)
    ∧ colTotalReturn (calculate_portfolio_performance T4 ps4) "P" = some (10 / 3) := by
  refine ⟨fun d => lookupCell_performance T ps p ts hmem hnodup hvalid hne d, ?_, ?_, ?_⟩
  · norm_num [calculate_portfolio_performance, T4, ps4, cleanTable, dropnaRows,
      ffillRows, fillRow, fillCell, normalizeTable, normCell, validTickers,
      portfolioRowValue, meanOpt, rowCell, idx?, lookupCell,
      List.filterMap_cons, List.filterMap_nil,
      List.getElem?_cons_zero, List.getElem?_cons_succ, List.getElem?_nil,
      (show ¬("A" = "B") by decide), (show ¬("A" = "C") by decide),
      (show ¬("B" = "C") by decide),
      (show ∀ q : ℚ, (some q = none) = False by intro q; simp)]
  · norm_num [calculate_portfolio_performance, T4, ps4, cleanTable, dropnaRows,
      ffillRows, fillRow, fillCell, normalizeTable, normCell, validTickers,
      portfolioRowValue, meanOpt, rowCell, idx?, lookupCell,
      List.filterMap_cons, List.filterMap_nil,
      List.getElem?_cons_zero, List.getElem?_cons_succ, List.getElem?_nil,
      (show ¬("A" = "B") by decide), (show ¬("A" = "C") by decide),
      (show ¬("B" = "C") by decide),
      (show ∀ q : ℚ, (some q = none) = False by intro q; simp)]
  · norm_num [calculate_portfolio_performance, T4, ps4, cleanTable, dropnaRows,
      ffillRows, fillRow, fillCell, normalizeTable, normCell, validTickers,
      portfolioRowValue, meanOpt, rowCell, idx?, colTotalReturn,
      List.filterMap_cons, List.filterMap_nil,
      List.getElem?_cons_zero, List.getElem?_cons_succ, List.getElem?_nil,
      (show ¬("A" = "B") by decide), (show ¬("A" = "C") by decide),
      (show ¬("B" = "C") by decide),
      (show ∀ q : ℚ, (some q = none) = False by intro q; simp)]

theorem c4_performance_equal_weight_witness :
    (("P", ["A", "B", "C"]) ∈ ps4
      ∧ (ps4.map Prod.fst).Nodup
      ∧ validTickers (normalizeTable (cleanTable T4)).cols ["A", "B", "C"] ≠ []
      ∧ (cleanTable T4).rows.isEmpty = false)
    ∧ ((∀ d, lookupCell (calculate_portfolio_performance T4 ps4) d "P"
        = meanOpt ((validTickers (normalizeTable (cleanTable T4)).cols
            ["A", "B", "C"]).filterMap
            (fun t => lookupCell (normalizeTable (cleanTable T4)) d t)))
      ∧ lookupCell (calculate_portfolio_performance T4 ps4) 0 "P" = some 100
      ∧ lookupCell (calculate_portfolio_performance T4 ps4) 1 "P" = some (310 / 3)
      ∧ colTotalReturn (calculate_portfolio_performance T4 ps4) "P" = some (10 / 3)) :=
  ⟨⟨by decide, by decide, by decide, by decide⟩,
   c4_performance_equal_weight T4 ps4 "P" ["A", "B", "C"]
     (by decide) (by decide) (by decide) (by decide)⟩
